import Mathlib

/-!
Shallow embedding of the train/test split engine of
`deeplabcut/generate_training_dataset/trainingsetmanipulation.py`.

Python floats that hold two-digit train fractions are modelled as exact
rationals (`ℚ`); Python ints as `ℕ`/`ℤ`; a Python function that can raise or
fall off the end without a value returns `Option`/`Except` here.  The
process-global numpy permutation drawn inside `SplitTrials` is passed in
explicitly as the already-shuffled list (`shuffled`), alongside the original
`trialindex` whose length the code reads.
-/

set_option maxHeartbeats 1000000

namespace DLC

/-- Ceiling division on naturals: for `0 < b` this equals
`math.ceil (a / b)` of the source. -/
def ceilDivNat (a b : ℕ) : ℕ := (a + b - 1) / b

/-- Rounding to two decimal digits, modelling `round(x, 2)` of the source. -/
def roundTo2 (q : ℚ) : ℚ := (round (100 * q) : ℤ) / 100

/-- Truncation of a rational toward zero, modelling `int(x)` on a Python float
and numpy `astype(int)`. -/
def ratTrunc (q : ℚ) : ℤ := if 0 ≤ q then ⌊q⌋ else ⌈q⌉

/-- Embedding of `pad_train_test_indices(train_inds, test_inds, train_fraction)`
(lines 626–647).  The branch where the current ratio is already exactly
`train_fraction` executes a bare `return` in the source, i.e. yields Python
`None`: that is `none` here.  Otherwise the two arrays are padded with `-1`
up to the computed target lengths.  `Int.gcd` takes absolute values exactly as
`math.gcd` does, and `List.replicate (a - b)` with truncated subtraction
matches `[-1] * (a - b)`, which is empty for a non-positive count. -/
def pad_train_test_indices (train_inds test_inds : List ℤ) (train_fraction : ℚ) :
    Option (List ℤ × List ℤ) :=
  let n_train_inds := train_inds.length
  let n_test_inds := test_inds.length
  let index_len := n_train_inds + n_test_inds
  if (n_train_inds : ℚ) / (index_len : ℚ) = train_fraction then
    none
  else
    let min_length_req : ℕ := 100 / Int.gcd 100 (round (100 * train_fraction))
    let min_n_train : ℕ := (round ((min_length_req : ℚ) * train_fraction)).toNat
    let min_n_test : ℕ := min_length_req - min_n_train
    let mult : ℕ := max (ceilDivNat n_train_inds min_n_train)
                        (ceilDivNat n_test_inds min_n_test)
    let n_train := mult * min_n_train
    let n_test := mult * min_n_test
    some (train_inds ++ List.replicate (n_train - n_train_inds) (-1),
          test_inds ++ List.replicate (n_test - n_test_inds) (-1))

/-- Embedding of `SplitTrials(trialindex, trainFraction, enforce_train_fraction)`
(lines 588–623).  `shuffled` stands for `np.random.permutation(trialindex)`;
theorems that need it assume it is a permutation of `trialindex`.  The two
early guards print a warning and return `([], [])` in the source.  When the
padding branch is taken, the source tuple-unpacks the result of
`pad_train_test_indices`; unpacking Python `None` would raise, which is the
`none` outcome propagated here. -/
def SplitTrials (trialindex shuffled : List ℤ) (trainFraction : ℚ)
    (enforce_train_fraction : Bool) : Option (List ℤ × List ℤ) :=
  if 1 < trainFraction ∨ trainFraction < 0 then
    some ([], [])
  else if 0 < |trainFraction - roundTo2 trainFraction| then
    some ([], [])
  else
    let index_len := trialindex.length
    let train_fraction := roundTo2 trainFraction
    let train_size : ℚ := (index_len : ℚ) * train_fraction
    let n := (ratTrunc train_size).toNat
    let test_indices := shuffled.drop n
    let train_indices := shuffled.take n
    if enforce_train_fraction = true ∧ train_size.den ≠ 1 then
      pad_train_test_indices train_indices test_indices train_fraction
    else
      some (train_indices, test_indices)

/-! Spec-side quantities of the padding calculator, written exactly with the
formulas of the specification: `g = gcd(100, round(100 * f))`,
`min_len = 100 / g`, `min_train = round(min_len * f)`,
`min_test = min_len - min_train`,
`m = max(ceil(n_train / min_train), ceil(n_test / min_test))`. -/

def spec_min_len (f : ℚ) : ℕ := 100 / Int.gcd 100 (round (100 * f))

def spec_min_train (f : ℚ) : ℕ := (round ((spec_min_len f : ℚ) * f)).toNat

def spec_min_test (f : ℚ) : ℕ := spec_min_len f - spec_min_train f

def spec_mult (f : ℚ) (n_train n_test : ℕ) : ℕ :=
  max (ceilDivNat n_train (spec_min_train f)) (ceilDivNat n_test (spec_min_test f))

section ArithmeticHelpers

lemma ceilDivNat_eq (a b : ℕ) : ceilDivNat a b = a ⌈/⌉ b := rfl

lemma ceilDivNat_le_mul (a b : ℕ) (hb : 0 < b) : a ≤ ceilDivNat a b * b := by
  rw [ceilDivNat_eq, Nat.mul_comm]
  simpa using le_smul_ceilDiv (b := a) hb

lemma ceilDivNat_pos (a b : ℕ) (hb : 0 < b) (ha : 0 < a) : 0 < ceilDivNat a b := by
  by_contra h
  push_neg at h
  have h0 : ceilDivNat a b = 0 := Nat.le_zero.mp h
  have := ceilDivNat_le_mul a b hb
  rw [h0] at this
  omega

lemma hundred_mul_frac (p : ℕ) : 100 * ((p : ℚ) / 100) = (p : ℚ) := by
  field_simp

lemma round_hundred_frac (p : ℕ) : round (100 * ((p : ℚ) / 100)) = (p : ℤ) := by
  rw [hundred_mul_frac, round_natCast]

lemma int_gcd_hundred (p : ℕ) : Int.gcd 100 ((p : ℤ)) = Nat.gcd 100 p := by
  simp [Int.gcd]

lemma spec_min_len_frac (p : ℕ) :
    spec_min_len ((p : ℚ) / 100) = 100 / Nat.gcd 100 p := by
  rw [spec_min_len, round_hundred_frac, int_gcd_hundred]

lemma spec_min_train_frac (p : ℕ) :
    spec_min_train ((p : ℚ) / 100) = p / Nat.gcd 100 p := by
  have hgpos : 0 < Nat.gcd 100 p := Nat.gcd_pos_of_pos_left p (by norm_num)
  have hg100 : Nat.gcd 100 p ∣ 100 := Nat.gcd_dvd_left 100 p
  have hgp : Nat.gcd 100 p ∣ p := Nat.gcd_dvd_right 100 p
  have hgQ : ((Nat.gcd 100 p : ℚ)) ≠ 0 := by positivity
  have hcast :
      ((spec_min_len ((p : ℚ) / 100) : ℕ) : ℚ) * ((p : ℚ) / 100)
        = ((p / Nat.gcd 100 p : ℕ) : ℚ) := by
    rw [spec_min_len_frac, Nat.cast_div hg100 hgQ, Nat.cast_div hgp hgQ]
    field_simp
    ring
  rw [spec_min_train, hcast, round_natCast, Int.toNat_natCast]

lemma spec_min_test_frac (p : ℕ) (hp1 : p ≤ 100) :
    spec_min_test ((p : ℚ) / 100) = (100 - p) / Nat.gcd 100 p := by
  have hgpos : 0 < Nat.gcd 100 p := Nat.gcd_pos_of_pos_left p (by norm_num)
  obtain ⟨a, ha⟩ := Nat.gcd_dvd_left 100 p
  obtain ⟨b, hb⟩ := Nat.gcd_dvd_right 100 p
  have hA : 100 / Nat.gcd 100 p = a := Nat.div_eq_of_eq_mul_right hgpos ha
  have hB : p / Nat.gcd 100 p = b := Nat.div_eq_of_eq_mul_right hgpos hb
  have hsub : 100 - p = Nat.gcd 100 p * (a - b) := by
    rw [Nat.mul_sub_left_distrib]; omega
  have hC : (100 - p) / Nat.gcd 100 p = a - b := Nat.div_eq_of_eq_mul_right hgpos hsub
  rw [spec_min_test, spec_min_len_frac, spec_min_train_frac, hA, hB, hC]

lemma spec_min_train_pos (p : ℕ) (hp0 : 0 < p) :
    0 < spec_min_train ((p : ℚ) / 100) := by
  rw [spec_min_train_frac]
  exact Nat.div_pos (Nat.le_of_dvd hp0 (Nat.gcd_dvd_right 100 p))
    (Nat.gcd_pos_of_pos_left p (by norm_num))

lemma spec_min_test_pos (p : ℕ) (hp1 : p < 100) :
    0 < spec_min_test ((p : ℚ) / 100) := by
  rw [spec_min_test_frac p (le_of_lt hp1)]
  exact Nat.div_pos
    (Nat.le_of_dvd (by omega) (Nat.dvd_sub' (Nat.gcd_dvd_left 100 p) (Nat.gcd_dvd_right 100 p)))
    (Nat.gcd_pos_of_pos_left p (by norm_num))

lemma spec_target_ratio (p m : ℕ) (hp0 : 0 < p) (hp1 : p < 100) (hm : 0 < m) :
    ((m * spec_min_train ((p : ℚ) / 100) : ℕ) : ℚ) /
      ((m * spec_min_train ((p : ℚ) / 100) + m * spec_min_test ((p : ℚ) / 100) : ℕ) : ℚ)
      = (p : ℚ) / 100 := by
  have hgpos : 0 < Nat.gcd 100 p := Nat.gcd_pos_of_pos_left p (by norm_num)
  obtain ⟨a, ha⟩ := Nat.gcd_dvd_left 100 p
  obtain ⟨b, hb⟩ := Nat.gcd_dvd_right 100 p
  have hB : p / Nat.gcd 100 p = b := Nat.div_eq_of_eq_mul_right hgpos hb
  have hsub : 100 - p = Nat.gcd 100 p * (a - b) := by
    rw [Nat.mul_sub_left_distrib]; omega
  have hC : (100 - p) / Nat.gcd 100 p = a - b := Nat.div_eq_of_eq_mul_right hgpos hsub
  rw [spec_min_train_frac, spec_min_test_frac p (le_of_lt hp1), hB, hC]
  have habase : b ≤ a := by
    have h1 : Nat.gcd 100 p * b ≤ Nat.gcd 100 p * a := by omega
    exact Nat.le_of_mul_le_mul_left h1 hgpos
  have hapos : 0 < a := by
    by_contra h
    push_neg at h
    interval_cases a
    omega
  have hsum : m * b + m * (a - b) = m * a := by
    rw [← Nat.mul_add]
    congr 1
    omega
  rw [hsum]
  have hden : ((m * a : ℕ) : ℚ) ≠ 0 := by
    have : 0 < m * a := Nat.mul_pos hm hapos
    positivity
  rw [div_eq_div_iff hden (by norm_num)]
  have haQ : (100 : ℚ) = (Nat.gcd 100 p : ℚ) * (a : ℚ) := by exact_mod_cast ha
  have hbQ : (p : ℚ) = (Nat.gcd 100 p : ℚ) * (b : ℚ) := by exact_mod_cast hb
  push_cast
  rw [haQ, hbQ]
  ring

end ArithmeticHelpers

section PadGeneral

/-- Unfolding of the non-exact branch of `pad_train_test_indices` at a two-digit
fraction `p / 100`: the arrays are extended by `-1` entries up to the target
lengths `m * min_train` and `m * min_test`, both targets dominate the current
lengths, and the multiplier is positive. -/
lemma pad_general (p : ℕ) (hp0 : 0 < p) (hp1 : p < 100) (tr te : List ℤ)
    (hne : tr.length + te.length ≠ 0)
    (hra : ((tr.length : ℚ)) / (((tr.length + te.length : ℕ)) : ℚ) ≠ (p : ℚ) / 100) :
    pad_train_test_indices tr te ((p : ℚ) / 100)
      = some (tr ++ List.replicate
                (spec_mult ((p : ℚ)/100) tr.length te.length * spec_min_train ((p : ℚ)/100)
                  - tr.length) (-1),
              te ++ List.replicate
                (spec_mult ((p : ℚ)/100) tr.length te.length * spec_min_test ((p : ℚ)/100)
                  - te.length) (-1))
      ∧ tr.length ≤ spec_mult ((p : ℚ)/100) tr.length te.length * spec_min_train ((p : ℚ)/100)
      ∧ te.length ≤ spec_mult ((p : ℚ)/100) tr.length te.length * spec_min_test ((p : ℚ)/100)
      ∧ 0 < spec_mult ((p : ℚ)/100) tr.length te.length := by
  have htrpos := spec_min_train_pos p hp0
  have htepos := spec_min_test_pos p hp1
  refine ⟨?_, ?_, ?_, ?_⟩
  · simp only [pad_train_test_indices, spec_mult, spec_min_train, spec_min_test, spec_min_len]
    rw [if_neg hra]
  · calc tr.length ≤ ceilDivNat tr.length (spec_min_train ((p : ℚ)/100))
          * spec_min_train ((p : ℚ)/100) := ceilDivNat_le_mul _ _ htrpos
      _ ≤ spec_mult ((p : ℚ)/100) tr.length te.length * spec_min_train ((p : ℚ)/100) :=
          Nat.mul_le_mul_right _ (le_max_left _ _)
  · calc te.length ≤ ceilDivNat te.length (spec_min_test ((p : ℚ)/100))
          * spec_min_test ((p : ℚ)/100) := ceilDivNat_le_mul _ _ htepos
      _ ≤ spec_mult ((p : ℚ)/100) tr.length te.length * spec_min_test ((p : ℚ)/100) :=
          Nat.mul_le_mul_right _ (le_max_right _ _)
  · rcases Nat.eq_zero_or_pos tr.length with h0 | h
    · have hte : 0 < te.length := by omega
      exact lt_of_lt_of_le (ceilDivNat_pos _ _ htepos hte) (le_max_right _ _)
    · exact lt_of_lt_of_le (ceilDivNat_pos _ _ htrpos h) (le_max_left _ _)

/-- Ratio of the padded lengths, phrased on the padded lists themselves. -/
lemma padded_lists_ratio (p m : ℕ) (hp0 : 0 < p) (hp1 : p < 100) (hm : 0 < m)
    (tr te : List ℤ)
    (htr : tr.length = m * spec_min_train ((p : ℚ)/100))
    (hte : te.length = m * spec_min_test ((p : ℚ)/100)) :
    ((tr.length : ℚ)) / (((tr.length + te.length : ℕ)) : ℚ) = (p : ℚ) / 100 := by
  rw [htr, hte]
  exact_mod_cast spec_target_ratio p m hp0 hp1 hm

end PadGeneral

section FilterHelpers

lemma filter_no_sentinel (l : List ℤ) (h : ∀ x ∈ l, 0 ≤ x) :
    l.filter (fun x => x ≠ -1) = l := by
  apply List.filter_eq_self.mpr
  intro a ha
  have := h a ha
  simp only [ne_eq, decide_not, Bool.not_eq_true', decide_eq_false_iff_not]
  omega

lemma filter_replicate_sentinel (k : ℕ) :
    (List.replicate k (-1 : ℤ)).filter (fun x => x ≠ -1) = [] := by
  induction k with
  | zero => rfl
  | succ n ih => simp [List.replicate_succ, ih]

end FilterHelpers

/-- Claim C1: for every pair of counts whose ratio is not already exact and
every two-digit train fraction `p / 100` in `(0, 1)`, `pad_train_test_indices`
pads the arrays to the target lengths `m * min_train` and `m * min_test`
(with `min_len = 100 / gcd(100, round(100 * f))`,
`min_train = round(min_len * f)`, `min_test = min_len - min_train`, and
`m = max(ceil(n_train / min_train), ceil(n_test / min_test))`); both padding
deltas are nonnegative and the resulting train ratio equals the fraction
exactly; in particular for `n_train = 26`, `n_test = 7`, fraction `0.8` the
targets are `(28, 7)`, i.e. the deltas are `(2, 0)`. -/
theorem claim_C1 :
    (∀ (p : ℕ) (tr te : List ℤ), 0 < p → p < 100 → tr.length + te.length ≠ 0 →
      ((tr.length : ℚ)) / (((tr.length + te.length : ℕ)) : ℚ) ≠ (p : ℚ) / 100 →
      ∃ tr2 te2,
        pad_train_test_indices tr te ((p : ℚ) / 100) = some (tr2, te2) ∧
        tr2.length = spec_mult ((p : ℚ)/100) tr.length te.length
          * spec_min_train ((p : ℚ)/100) ∧
        te2.length = spec_mult ((p : ℚ)/100) tr.length te.length
          * spec_min_test ((p : ℚ)/100) ∧
        tr.length ≤ tr2.length ∧ te.length ≤ te2.length ∧
        ((tr2.length : ℚ)) / (((tr2.length + te2.length : ℕ)) : ℚ) = (p : ℚ) / 100)
    ∧ (pad_train_test_indices (List.replicate 26 (0 : ℤ)) (List.replicate 7 (0 : ℤ))
        ((80 : ℚ) / 100)).map (fun pr => (pr.1.length, pr.2.length)) = some (28, 7) := by
  have hgen : ∀ (p : ℕ) (tr te : List ℤ), 0 < p → p < 100 → tr.length + te.length ≠ 0 →
      ((tr.length : ℚ)) / (((tr.length + te.length : ℕ)) : ℚ) ≠ (p : ℚ) / 100 →
      ∃ tr2 te2,
        pad_train_test_indices tr te ((p : ℚ) / 100) = some (tr2, te2) ∧
        tr2.length = spec_mult ((p : ℚ)/100) tr.length te.length
          * spec_min_train ((p : ℚ)/100) ∧
        te2.length = spec_mult ((p : ℚ)/100) tr.length te.length
          * spec_min_test ((p : ℚ)/100) ∧
        tr.length ≤ tr2.length ∧ te.length ≤ te2.length ∧
        ((tr2.length : ℚ)) / (((tr2.length + te2.length : ℕ)) : ℚ) = (p : ℚ) / 100 := by
    intro p tr te hp0 hp1 hne hra
    obtain ⟨heq, hletr, hlete, hmpos⟩ := pad_general p hp0 hp1 tr te hne hra
    refine ⟨_, _, heq, ?_, ?_, ?_, ?_, ?_⟩
    · simp only [List.length_append, List.length_replicate]
      omega
    · simp only [List.length_append, List.length_replicate]
      omega
    · simp only [List.length_append, List.length_replicate]
      omega
    · simp only [List.length_append, List.length_replicate]
      omega
    · apply padded_lists_ratio p _ hp0 hp1 hmpos
      · simp only [List.length_append, List.length_replicate]
        omega
      · simp only [List.length_append, List.length_replicate]
        omega
  refine ⟨hgen, ?_⟩
  have h80 : ((80 : ℕ) : ℚ) = (80 : ℚ) := by norm_num
  have e1 : spec_min_train ((80 : ℚ) / 100) = 4 := by
    rw [← h80, spec_min_train_frac]
    rfl
  have e2 : spec_min_test ((80 : ℚ) / 100) = 1 := by
    rw [← h80, spec_min_test_frac 80 (by norm_num)]
    rfl
  obtain ⟨tr2, te2, heq, hlen1, hlen2, -, -, -⟩ :=
    hgen 80 (List.replicate 26 (0 : ℤ)) (List.replicate 7 (0 : ℤ))
      (by norm_num) (by norm_num)
      (by simp)
      (by simp only [List.length_replicate]; push_cast; norm_num)
  rw [h80] at heq hlen1 hlen2
  rw [heq]
  simp only [Option.map_some', Option.some.injEq]
  rw [hlen1, hlen2]
  simp only [List.length_replicate, spec_mult, e1, e2]
  rfl

/-- Witness for `claim_C1`: its universally quantified part instantiated at
the concrete example of the claim. -/
theorem claim_C1_witness :
    ∃ tr2 te2,
      pad_train_test_indices (List.replicate 26 (0 : ℤ)) (List.replicate 7 (0 : ℤ))
        (((80 : ℕ) : ℚ) / 100) = some (tr2, te2) ∧
      tr2.length = spec_mult (((80 : ℕ) : ℚ)/100) (List.replicate 26 (0 : ℤ)).length
        (List.replicate 7 (0 : ℤ)).length * spec_min_train (((80 : ℕ) : ℚ)/100) ∧
      te2.length = spec_mult (((80 : ℕ) : ℚ)/100) (List.replicate 26 (0 : ℤ)).length
        (List.replicate 7 (0 : ℤ)).length * spec_min_test (((80 : ℕ) : ℚ)/100) ∧
      (List.replicate 26 (0 : ℤ)).length ≤ tr2.length ∧
      (List.replicate 7 (0 : ℤ)).length ≤ te2.length ∧
      ((tr2.length : ℚ)) / (((tr2.length + te2.length : ℕ)) : ℚ) = ((80 : ℕ) : ℚ) / 100 :=
  claim_C1.1 80 (List.replicate 26 (0 : ℤ)) (List.replicate 7 (0 : ℤ))
    (by norm_num) (by norm_num) (by simp)
    (by simp only [List.length_replicate]; push_cast; norm_num)

lemma round_eq_of_bounds (q : ℚ) (z : ℤ) (h1 : (z : ℚ) ≤ q + 1/2) (h2 : q + 1/2 < z + 1) :
    round q = z := by
  rw [round_eq]
  exact Int.floor_eq_iff.mpr ⟨h1, h2⟩

/-- Claim C2 counterexample: with `train = [0,1,2,3]`, `test = [4]` and
fraction `4/5` the current ratio is already exact, and
`pad_train_test_indices` returns `none` (the bare Python `return`), not the
pair of unchanged arrays with zero deltas that the claim describes. -/
theorem claim_C2_cex :
    pad_train_test_indices [0, 1, 2, 3] [4] (4/5) = none ∧
    pad_train_test_indices [0, 1, 2, 3] [4] (4/5) ≠ some ([0, 1, 2, 3], [4]) := by
  have hcond : ((([0, 1, 2, 3] : List ℤ).length : ℚ)) /
      (((([0, 1, 2, 3] : List ℤ).length + ([4] : List ℤ).length : ℕ)) : ℚ) = 4/5 := by
    simp only [List.length_cons, List.length_nil]
    norm_num
  have hnone : pad_train_test_indices [0, 1, 2, 3] [4] (4/5) = none := by
    simp only [pad_train_test_indices]
    rw [if_pos hcond]
  exact ⟨hnone, by rw [hnone]; exact fun h => Option.noConfusion h⟩

/-- Claim C2 (amended): when the current train/test length ratio already
equals the fraction exactly, `pad_train_test_indices` performs no padding but
returns Python `None` (its bare `return`) instead of handing back the two
arrays with deltas `(0, 0)`. -/
theorem claim_C2_amended (train_inds test_inds : List ℤ) (train_fraction : ℚ)
    (h : ((train_inds.length : ℚ)) / (((train_inds.length + test_inds.length : ℕ)) : ℚ)
      = train_fraction) :
    pad_train_test_indices train_inds test_inds train_fraction = none := by
  simp only [pad_train_test_indices]
  rw [if_pos h]

/-- Witness for `claim_C2_amended` at the exact-ratio input `(4, 1, 4/5)`. -/
theorem claim_C2_witness :
    pad_train_test_indices [0, 1, 2, 3] [4] (4/5) = none :=
  claim_C2_amended [0, 1, 2, 3] [4] (4/5)
    (by simp only [List.length_cons, List.length_nil]; norm_num)

/-- Claim C3 counterexample: the boundary fraction `0` lies outside the open
interval `(0, 1)` and survives `round(., 2)`, yet `SplitTrials` does not
return the empty pair: both guards pass (the source only rejects fractions
strictly above `1` or strictly below `0`) and the full index set lands in the
test side. -/
theorem claim_C3_cex :
    (¬ (0 < (0 : ℚ) ∧ (0 : ℚ) < 1)) ∧ roundTo2 0 = 0 ∧
    SplitTrials [0] [0] 0 false = some ([], [0]) ∧
    SplitTrials [0] [0] 0 false ≠ some ([], []) := by
  have hr : roundTo2 (0 : ℚ) = 0 := by
    rw [roundTo2]
    rw [show (100 : ℚ) * 0 = 0 by ring, round_zero]
    norm_num
  refine ⟨by norm_num, hr, ?_, ?_⟩
  · have hsplit : SplitTrials [0] [0] 0 false = some ([], [0]) := by
      simp only [SplitTrials]
      rw [if_neg (by norm_num), if_neg (by rw [hr]; norm_num)]
      simp only [hr, List.length_cons, List.length_nil]
      rw [show ((1 : ℕ) : ℚ) * 0 = 0 by norm_num]
      rw [show ratTrunc 0 = 0 by rw [ratTrunc]; norm_num]
      norm_num
    exact hsplit
  · have hsplit : SplitTrials [0] [0] 0 false = some ([], [0]) := by
      simp only [SplitTrials]
      rw [if_neg (by norm_num), if_neg (by rw [hr]; norm_num)]
      simp only [hr, List.length_cons, List.length_nil]
      rw [show ((1 : ℕ) : ℚ) * 0 = 0 by norm_num]
      rw [show ratTrunc 0 = 0 by rw [ratTrunc]; norm_num]
      norm_num
    rw [hsplit]
    intro h
    simp at h

/-- Claim C3 (amended): `SplitTrials` returns the empty pair `([], [])`,
without raising, exactly when the fraction is strictly above `1`, strictly
below `0`, or not of two-digit precision; the boundary values `0` and `1`
instead pass the guards and produce a degenerate one-sided split. -/
theorem claim_C3_amended (trialindex shuffled : List ℤ) (trainFraction : ℚ)
    (enforce : Bool)
    (h : 1 < trainFraction ∨ trainFraction < 0 ∨ roundTo2 trainFraction ≠ trainFraction) :
    SplitTrials trialindex shuffled trainFraction enforce = some ([], []) := by
  by_cases hg : 1 < trainFraction ∨ trainFraction < 0
  · simp only [SplitTrials]
    rw [if_pos hg]
  · have hr : roundTo2 trainFraction ≠ trainFraction := by
      rcases h with h | h | h
      · exact absurd (Or.inl h) hg
      · exact absurd (Or.inr h) hg
      · exact h
    simp only [SplitTrials]
    rw [if_neg hg, if_pos (abs_pos.mpr (sub_ne_zero.mpr (Ne.symm hr)))]

/-- Witness for `claim_C3_amended` at the three-digit fraction `0.333`. -/
theorem claim_C3_witness :
    SplitTrials [0] [0] (333/1000) false = some ([], []) :=
  claim_C3_amended [0] [0] (333/1000) false
    (Or.inr (Or.inr (by
      rw [roundTo2]
      rw [show (100 : ℚ) * (333/1000) = 333/10 by norm_num]
      rw [round_eq_of_bounds (333/10) 33 (by norm_num) (by norm_num)]
      norm_num)))

section SplitGuards

lemma guard_one (p : ℕ) (hp0 : 0 < p) (hp1 : p < 100) :
    ¬ (1 < (p : ℚ)/100 ∨ (p : ℚ)/100 < 0) := by
  push_neg
  constructor
  · rw [div_le_one (by norm_num)]
    exact_mod_cast le_of_lt hp1
  · positivity

lemma guard_two (p : ℕ) : roundTo2 ((p : ℚ)/100) = (p : ℚ)/100 := by
  rw [roundTo2, round_hundred_frac]
  norm_num

lemma guard_two_abs (p : ℕ) :
    ¬ 0 < |(p : ℚ)/100 - roundTo2 ((p : ℚ)/100)| := by
  rw [guard_two]
  simp

end SplitGuards

/-- Claim C4: for every two-digit fraction `p/100` in `(0,1)` and every
nonempty index population, the split produced by `SplitTrials` with
`enforce_train_fraction = True` has padded lengths whose ratio is exactly the
fraction, and stripping all `-1` entries from the padded train and test
arrays recovers exactly the unpadded split (the one `SplitTrials` returns
without enforcement): sentinels are only appended and real indices, being
nonnegative, are never `-1`. -/
theorem claim_C4 (p : ℕ) (trialindex shuffled : List ℤ)
    (hp0 : 0 < p) (hp1 : p < 100) (hnil : trialindex ≠ [])
    (hperm : trialindex.Perm shuffled) (hpos : ∀ x ∈ shuffled, 0 ≤ x) :
    ∃ tr0 te0 tr te,
      SplitTrials trialindex shuffled ((p : ℚ)/100) false = some (tr0, te0) ∧
      SplitTrials trialindex shuffled ((p : ℚ)/100) true = some (tr, te) ∧
      ((tr.length : ℚ)) / (((tr.length + te.length : ℕ)) : ℚ) = (p : ℚ)/100 ∧
      tr.filter (fun x => x ≠ -1) = tr0 ∧
      te.filter (fun x => x ≠ -1) = te0 := by
  have hg1 := guard_one p hp0 hp1
  have hg2 := guard_two p
  have hgabs := guard_two_abs p
  have hL : 0 < trialindex.length := List.length_pos.mpr hnil
  have hLQ : ((trialindex.length : ℚ)) ≠ 0 := by positivity
  have hLs : shuffled.length = trialindex.length := hperm.length_eq.symm
  have hq0 : (0 : ℚ) ≤ (trialindex.length : ℚ) * ((p : ℚ)/100) := by positivity
  have htrunc : ratTrunc ((trialindex.length : ℚ) * ((p : ℚ)/100))
      = ⌊(trialindex.length : ℚ) * ((p : ℚ)/100)⌋ := by
    rw [ratTrunc, if_pos hq0]
  have hfloor0 : 0 ≤ ⌊(trialindex.length : ℚ) * ((p : ℚ)/100)⌋ := Int.floor_nonneg.mpr hq0
  have hqle : (trialindex.length : ℚ) * ((p : ℚ)/100) ≤ (trialindex.length : ℚ) := by
    apply mul_le_of_le_one_right (by positivity)
    rw [div_le_one (by norm_num)]
    exact_mod_cast le_of_lt hp1
  have hfle : ⌊(trialindex.length : ℚ) * ((p : ℚ)/100)⌋ ≤ (trialindex.length : ℤ) := by
    calc ⌊(trialindex.length : ℚ) * ((p : ℚ)/100)⌋ ≤ ⌊(trialindex.length : ℚ)⌋ :=
          Int.floor_le_floor hqle
      _ = (trialindex.length : ℤ) := Int.floor_natCast _
  set n : ℕ := (⌊(trialindex.length : ℚ) * ((p : ℚ)/100)⌋).toNat with hn
  have hnle : n ≤ shuffled.length := by
    rw [hLs]
    exact Int.toNat_le.mpr hfle
  have hlen_take : (shuffled.take n).length = n := by
    rw [List.length_take]
    omega
  have hlen_drop : (shuffled.drop n).length = shuffled.length - n := List.length_drop _ _
  have hsum : (shuffled.take n).length + (shuffled.drop n).length = trialindex.length := by
    rw [hlen_take, hlen_drop, hLs]
    omega
  have hpos_take : ∀ x ∈ shuffled.take n, (0 : ℤ) ≤ x :=
    fun x hx => hpos x (List.take_subset n shuffled hx)
  have hpos_drop : ∀ x ∈ shuffled.drop n, (0 : ℤ) ≤ x :=
    fun x hx => hpos x (List.drop_subset n shuffled hx)
  have hfalse_res : SplitTrials trialindex shuffled ((p : ℚ)/100) false
      = some (shuffled.take n, shuffled.drop n) := by
    simp only [SplitTrials]
    rw [if_neg hg1, if_neg hgabs, hg2, htrunc]
    simp
  by_cases hden : ((trialindex.length : ℚ) * ((p : ℚ)/100)).den = 1
  · -- the train size is an integer: no padding happens even with enforcement
    have htrue_res : SplitTrials trialindex shuffled ((p : ℚ)/100) true
        = some (shuffled.take n, shuffled.drop n) := by
      simp only [SplitTrials]
      rw [if_neg hg1, if_neg hgabs, hg2, htrunc]
      simp [hden]
    have hnQ : ((n : ℚ)) = (trialindex.length : ℚ) * ((p : ℚ)/100) := by
      have hnum := (Rat.den_eq_one_iff _).mp hden
      have hfl : ⌊(trialindex.length : ℚ) * ((p : ℚ)/100)⌋
          = ((trialindex.length : ℚ) * ((p : ℚ)/100)).num := by
        conv_lhs => rw [← hnum]
        exact Int.floor_intCast _
      have hnum0 : 0 ≤ ((trialindex.length : ℚ) * ((p : ℚ)/100)).num :=
        Rat.num_nonneg.mpr hq0
      rw [hn, hfl]
      calc ((((trialindex.length : ℚ) * ((p : ℚ)/100)).num.toNat : ℕ) : ℚ)
          = ((((trialindex.length : ℚ) * ((p : ℚ)/100)).num : ℤ) : ℚ) := by
            exact_mod_cast Int.toNat_of_nonneg hnum0
        _ = (trialindex.length : ℚ) * ((p : ℚ)/100) := hnum
    refine ⟨shuffled.take n, shuffled.drop n, shuffled.take n, shuffled.drop n,
      hfalse_res, htrue_res, ?_, ?_, ?_⟩
    · rw [hsum, hlen_take, hnQ]
      exact mul_div_cancel_left₀ _ hLQ
    · exact filter_no_sentinel _ hpos_take
    · exact filter_no_sentinel _ hpos_drop
  · -- fractional train size: padding branch
    have hne : (shuffled.take n).length + (shuffled.drop n).length ≠ 0 := by
      rw [hsum]
      omega
    have hra : (((shuffled.take n).length : ℚ)) /
        ((((shuffled.take n).length + (shuffled.drop n).length : ℕ)) : ℚ)
        ≠ (p : ℚ)/100 := by
      intro hcontr
      rw [hsum, hlen_take] at hcontr
      rw [div_eq_iff hLQ] at hcontr
      have : ((trialindex.length : ℚ) * ((p : ℚ)/100)) = ((n : ℕ) : ℚ) := by
        rw [hcontr]
        ring
      rw [this] at hden
      exact hden (Rat.den_natCast n)
    obtain ⟨heq, hletr, hlete, hmpos⟩ :=
      pad_general p hp0 hp1 (shuffled.take n) (shuffled.drop n) hne hra
    have htrue_res : SplitTrials trialindex shuffled ((p : ℚ)/100) true
        = pad_train_test_indices (shuffled.take n) (shuffled.drop n) ((p : ℚ)/100) := by
      simp only [SplitTrials]
      rw [if_neg hg1, if_neg hgabs, hg2, htrunc]
      simp [hden]
    refine ⟨shuffled.take n, shuffled.drop n, _, _, hfalse_res, htrue_res.trans heq, ?_, ?_, ?_⟩
    · apply padded_lists_ratio p (spec_mult ((p : ℚ)/100) (shuffled.take n).length
        (shuffled.drop n).length) hp0 hp1 hmpos
      · simp only [List.length_append, List.length_replicate]
        omega
      · simp only [List.length_append, List.length_replicate]
        omega
    · rw [List.filter_append, filter_no_sentinel _ hpos_take, filter_replicate_sentinel,
        List.append_nil]
    · rw [List.filter_append, filter_no_sentinel _ hpos_drop, filter_replicate_sentinel,
        List.append_nil]

/-- Witness for `claim_C4`: a population of three indices split at fraction
`80/100`; the padded split has ratio exactly `4/5` and stripping `-1` recovers
the raw two-element take and one-element drop. -/
theorem claim_C4_witness :
    ∃ tr0 te0 tr te,
      SplitTrials [0, 1, 2] [2, 0, 1] (((80 : ℕ) : ℚ)/100) false = some (tr0, te0) ∧
      SplitTrials [0, 1, 2] [2, 0, 1] (((80 : ℕ) : ℚ)/100) true = some (tr, te) ∧
      ((tr.length : ℚ)) / (((tr.length + te.length : ℕ)) : ℚ) = ((80 : ℕ) : ℚ)/100 ∧
      tr.filter (fun x => x ≠ -1) = tr0 ∧
      te.filter (fun x => x ≠ -1) = te0 :=
  claim_C4 80 [0, 1, 2] [2, 0, 1] (by norm_num) (by norm_num) (by simp)
    (by decide) (by decide)

/-! Embedding of `format_training_data(df, train_inds, nbodyparts, project_path)`
(lines 745–783).  A data-frame row is a `FrameData`: the image path, the shape
triple `(nbands, height, width)` reported by `read_image_shape_fast`, and the
per-bodypart coordinate pairs, with `none` standing for NaN.  The matlab
mirror of the structure is byte-identical bookkeeping and is not modelled. -/

structure FrameData where
  image : String
  nbands : ℤ
  height : ℤ
  width : ℤ
  coords : List (Option ℚ × Option ℚ)
  deriving Repr, DecidableEq

/-- The joint rows kept for one frame: `np.c_[range(nbodyparts), temp]` pairs
each bodypart position with its coordinates, rows containing NaN are dropped,
coordinates are cast with `astype(int)` (truncation toward zero), and the
`inside` mask keeps a row only when `0 < x < width` and `0 < y < height`
(`img_shape[2]` is the width bound for column 1, `img_shape[1]` the height
bound for column 2; both comparisons are strict in the source). -/
def validJoints (height width : ℤ) (coords : List (Option ℚ × Option ℚ)) :
    List (ℕ × ℤ × ℤ) :=
  coords.enum.filterMap fun pr =>
    match pr.2.1, pr.2.2 with
    | some x, some y =>
      if ratTrunc x < width ∧ 0 < ratTrunc x ∧ ratTrunc y < height ∧ 0 < ratTrunc y then
        some (pr.1, ratTrunc x, ratTrunc y)
      else
        none
    | _, _ => none

/-- Embedding of the `for i in train_inds` loop of `format_training_data`:
frames are looked up by index (`none` models the IndexError on a bad index),
and a frame whose joint list is empty after filtering is skipped
(`if joints.size`). -/
def format_training_data (frames : List FrameData) :
    List ℕ → Option (List (String × (ℤ × ℤ × ℤ) × List (ℕ × ℤ × ℤ)))
  | [] => some []
  | i :: rest =>
    match frames.get? i with
    | none => none
    | some fr =>
      let joints := validJoints fr.height fr.width fr.coords
      match format_training_data frames rest with
      | none => none
      | some out =>
        some (if joints.isEmpty then out
              else (fr.image, (fr.nbands, fr.height, fr.width), joints) :: out)

/-- Claim C5 counterexample: a keypoint at pixel `(0, 5)` in a `10 × 10` image
lies inside the half-open bounds `[0, width) × [0, height)` of the claim, yet
the source's strict `> 0` comparison discards it, and the frame, now without
joints, is excluded entirely. -/
theorem claim_C5_cex :
    ratTrunc (0 : ℚ) = 0 ∧ (0 : ℤ) ≤ 0 ∧ (0 : ℤ) < 10 ∧
    ratTrunc (5 : ℚ) = 5 ∧ (0 : ℤ) ≤ 5 ∧ (5 : ℤ) < 10 ∧
    validJoints 10 10 [(some 0, some 5)] = [] ∧
    format_training_data [⟨"img", 3, 10, 10, [(some 0, some 5)]⟩] [0] = some [] := by
  have ht0 : ratTrunc (0 : ℚ) = 0 := by
    rw [ratTrunc, if_pos (le_refl (0 : ℚ)), Int.floor_zero]
  have ht5 : ratTrunc (5 : ℚ) = 5 := by
    rw [ratTrunc, if_pos (by norm_num : (0 : ℚ) ≤ 5)]
    rw [show (5 : ℚ) = ((5 : ℤ) : ℚ) by norm_num, Int.floor_intCast]
  have hjoints : validJoints 10 10 [(some 0, some 5)] = [] := by
    simp only [validJoints, List.enum, List.enumFrom, List.filterMap]
    rw [ht0]
    norm_num
  refine ⟨ht0, le_refl 0, by norm_num, ht5, by norm_num, by norm_num, hjoints, ?_⟩
  simp only [format_training_data, List.get?]
  rw [hjoints]
  rfl

/-- Claim C5 (amended): in `format_training_data` a keypoint is retained if
and only if neither coordinate is NaN and its truncated pixel coordinates
satisfy the strict bounds `0 < x < width` and `0 < y < height` (the lower
bounds are strict in the source, so boundary pixels at coordinate `0` are
discarded); a frame whose retained set is empty is excluded entirely, and a
referenced frame with a nonempty retained set contributes exactly its
filtered joint rows. -/
theorem claim_C5_amended :
    (∀ (h w : ℤ) (coords : List (Option ℚ × Option ℚ)) (b : ℕ)
        (ox oy : Option ℚ), coords.get? b = some (ox, oy) →
      ((∃ xi yi, (b, xi, yi) ∈ validJoints h w coords) ↔
        (∃ x y, ox = some x ∧ oy = some y ∧
          0 < ratTrunc x ∧ ratTrunc x < w ∧ 0 < ratTrunc y ∧ ratTrunc y < h)))
    ∧ (∀ (frames : List FrameData) (inds : List ℕ) (out : List _),
        format_training_data frames inds = some out →
        (∀ e ∈ out, e.2.2 ≠ []) ∧
        (∀ i fr, i ∈ inds → frames.get? i = some fr →
          validJoints fr.height fr.width fr.coords ≠ [] →
          (fr.image, (fr.nbands, fr.height, fr.width),
            validJoints fr.height fr.width fr.coords) ∈ out)) := by
  constructor
  · intro h w coords b ox oy hb
    constructor
    · rintro ⟨xi, yi, hmem⟩
      obtain ⟨⟨j, cx, cy⟩, hpr, hstep⟩ := List.mem_filterMap.mp hmem
      have hjb : coords.get? j = some (cx, cy) := by
        rw [List.get?_eq_getElem?]
        exact (List.mk_mem_enum_iff_getElem?).mp hpr
      match cx, cy with
      | none, _ => exact absurd hstep (by simp)
      | some x, none => exact absurd hstep (by simp)
      | some x, some y =>
        simp only at hstep
        by_cases hcond : ratTrunc x < w ∧ 0 < ratTrunc x ∧ ratTrunc y < h ∧ 0 < ratTrunc y
        · rw [if_pos hcond] at hstep
          obtain ⟨hj, -, -⟩ := Prod.mk.injEq .. ▸ (Option.some.injEq _ _ ▸ hstep)
          subst hj
          rw [hjb] at hb
          obtain ⟨hox, hoy⟩ : ox = some x ∧ oy = some y := by
            have := (Option.some.injEq _ _).mp hb
            exact ⟨(Prod.mk.injEq .. ▸ this).1.symm, (Prod.mk.injEq .. ▸ this).2.symm⟩
          exact ⟨x, y, hox, hoy, hcond.2.1, hcond.1, hcond.2.2.2, hcond.2.2.1⟩
        · rw [if_neg hcond] at hstep
          exact absurd hstep (by simp)
    · rintro ⟨x, y, hox, hoy, hx0, hxw, hy0, hyh⟩
      subst hox
      subst hoy
      refine ⟨ratTrunc x, ratTrunc y, List.mem_filterMap.mpr
        ⟨(b, (some x, some y)), ?_, ?_⟩⟩
      · exact (List.mk_mem_enum_iff_getElem?).mpr (by rw [← List.get?_eq_getElem?]; exact hb)
      · simp only
        rw [if_pos ⟨hxw, hx0, hyh, hy0⟩]
  · intro frames inds
    induction inds with
    | nil =>
      intro out hout
      simp only [format_training_data, Option.some.injEq] at hout
      subst hout
      exact ⟨fun e he => absurd he (List.not_mem_nil e), fun i fr hi => absurd hi (by simp)⟩
    | cons i rest ih =>
      intro out hout
      simp only [format_training_data] at hout
      match hfr : frames.get? i with
      | none => rw [hfr] at hout; exact absurd hout (by simp)
      | some fr =>
        rw [hfr] at hout
        simp only at hout
        match hrest : format_training_data frames rest with
        | none => rw [hrest] at hout; exact absurd hout (by simp)
        | some out2 =>
          rw [hrest] at hout
          simp only [Option.some.injEq] at hout
          obtain ⟨hall2, hmem2⟩ := ih out2 hrest
          subst hout
          by_cases hempty : (validJoints fr.height fr.width fr.coords).isEmpty
          · rw [if_pos hempty]
            refine ⟨hall2, ?_⟩
            intro j fr2 hj hfr2 hne2
            rcases List.mem_cons.mp hj with rfl | hj2
            · rw [hfr2] at hfr
              obtain rfl : fr2 = fr := by
                exact (Option.some.injEq _ _).mp hfr.symm |>.symm ▸ rfl
              exact absurd (List.isEmpty_iff.mp hempty) hne2
            · exact hmem2 j fr2 hj2 hfr2 hne2
          · rw [if_neg hempty]
            constructor
            · intro e he
              rcases List.mem_cons.mp he with rfl | he2
              · simpa using fun hnil => hempty (by rw [hnil]; rfl)
              · exact hall2 e he2
            · intro j fr2 hj hfr2 hne2
              rcases List.mem_cons.mp hj with rfl | hj2
              · rw [hfr2] at hfr
                obtain rfl : fr2 = fr := by
                  exact (Option.some.injEq _ _).mp hfr.symm |>.symm ▸ rfl
                exact List.mem_cons_self _ _
              · exact List.mem_cons_of_mem _ (hmem2 j fr2 hj2 hfr2 hne2)

/-- Witness for `claim_C5_amended`: a keypoint at pixel `(3, 5)` of a
`10 × 10` image is retained, and the frame containing it appears in the
output. -/
theorem claim_C5_witness :
    ((∃ xi yi, (0, xi, yi) ∈ validJoints 10 10 [(some 3, some 5)]) ↔
      (∃ x y, (some (3 : ℚ)) = some x ∧ (some (5 : ℚ)) = some y ∧
        0 < ratTrunc x ∧ ratTrunc x < 10 ∧ 0 < ratTrunc y ∧ ratTrunc y < 10)) :=
  claim_C5_amended.1 10 10 [(some 3, some 5)] 0 (some 3) (some 5) rfl

/-- The `while tgt_train < num_train or tgt_test < num_test` loop of
`_compute_padding` (lines 1823–1825), with an explicit iteration bound.  When
both steps are positive — the only case the claims touch — the bound
`num_train + num_test + 1` passed by `_compute_padding` is large enough that
the loop always exits via its condition (see `padLoop_reaches`); with a zero
step the source loop may not terminate at all. -/
def padLoop (train_step test_step num_train num_test : ℕ) :
    ℕ → ℕ × ℕ → ℕ × ℕ
  | 0, tgt => tgt
  | fuel + 1, tgt =>
    if tgt.1 < num_train ∨ tgt.2 < num_test then
      padLoop train_step test_step num_train num_test fuel
        (tgt.1 + train_step, tgt.2 + test_step)
    else
      tgt

/-- Embedding of `_compute_padding(train_fraction, num_train, num_test)`
(lines 1798–1827): fractions outside `(0, 1)` raise (modelled as `none`);
otherwise the target starts at one block of
`(round(round(f,2)*100), 100 - round(round(f,2)*100))` and grows by whole
blocks until it covers both counts; the deltas to the current counts are
returned. -/
def _compute_padding (train_fraction : ℚ) (num_train num_test : ℕ) :
    Option (ℕ × ℕ) :=
  if train_fraction ≤ 0 ∨ 1 ≤ train_fraction then
    none
  else
    let base_images : ℕ := 100
    let train_step : ℕ := (round (roundTo2 train_fraction * (base_images : ℚ))).toNat
    let test_step : ℕ := base_images - train_step
    let tgt := padLoop train_step test_step num_train num_test
      (num_train + num_test + 1) (train_step, test_step)
    some (tgt.1 - num_train, tgt.2 - num_test)

lemma padLoop_reaches (ts tes ntr nte : ℕ) (hts : 0 < ts) (htes : 0 < tes) :
    ∀ (fuel j : ℕ), 0 < j → ntr + nte + 1 ≤ j + fuel →
    ∃ k, 0 < k ∧
      padLoop ts tes ntr nte fuel (j * ts, j * tes) = (k * ts, k * tes) ∧
      ntr ≤ k * ts ∧ nte ≤ k * tes := by
  intro fuel
  induction fuel with
  | zero =>
    intro j hj hle
    refine ⟨j, hj, rfl, ?_, ?_⟩
    · calc ntr ≤ j := by omega
        _ = j * 1 := (Nat.mul_one j).symm
        _ ≤ j * ts := Nat.mul_le_mul_left j hts
    · calc nte ≤ j := by omega
        _ = j * 1 := (Nat.mul_one j).symm
        _ ≤ j * tes := Nat.mul_le_mul_left j htes
  | succ fuel ih =>
    intro j hj hle
    by_cases hcond : j * ts < ntr ∨ j * tes < nte
    · have hjlt : j < ntr + nte := by
        have h1 : j ≤ j * ts := Nat.le_mul_of_pos_right j hts
        have h2 : j ≤ j * tes := Nat.le_mul_of_pos_right j htes
        omega
      obtain ⟨k, hk, heq, h1, h2⟩ := ih (j + 1) (by omega) (by omega)
      refine ⟨k, hk, ?_, h1, h2⟩
      rw [padLoop, if_pos hcond]
      rw [show (j * ts + ts, j * tes + tes) = ((j + 1) * ts, (j + 1) * tes) by
        rw [Prod.mk.injEq]; exact ⟨by ring, by ring⟩]
      exact heq
    · push_neg at hcond
      exact ⟨j, hj, by rw [padLoop, if_neg (by push_neg; exact hcond)], hcond.1, hcond.2⟩

lemma compute_padding_step (p : ℕ) (hp1 : p ≤ 100) :
    (round (roundTo2 ((p : ℚ)/100) * ((100 : ℕ) : ℚ))).toNat = p := by
  rw [guard_two]
  rw [show ((p : ℚ)/100) * ((100 : ℕ) : ℚ) = 100 * ((p : ℚ)/100) by push_cast; ring]
  rw [round_hundred_frac, Int.toNat_natCast]

/-- Claim C6 counterexample: at fraction `0.8` with counts `(26, 7)`,
`_compute_padding` returns the deltas `(54, 13)` — it pads up to one whole
block of `(80, 20)` — while `pad_train_test_indices` pads only to the
gcd-reduced target `(28, 7)`, i.e. deltas `(2, 0)`.  The two calculators are
not equal. -/
theorem claim_C6_cex :
    _compute_padding (4/5 : ℚ) 26 7 = some (54, 13) ∧
    (pad_train_test_indices (List.replicate 26 (0 : ℤ)) (List.replicate 7 (0 : ℤ))
      (4/5 : ℚ)).map (fun pr => (pr.1.length - 26, pr.2.length - 7)) = some (2, 0) ∧
    ((54 : ℕ), (13 : ℕ)) ≠ ((2 : ℕ), (0 : ℕ)) := by
  have h45 : (4/5 : ℚ) = ((80 : ℕ) : ℚ)/100 := by norm_num
  have hg : ¬ (((80 : ℕ) : ℚ)/100 ≤ 0 ∨ 1 ≤ ((80 : ℕ) : ℚ)/100) := by
    push_neg
    refine ⟨by positivity, ?_⟩
    rw [div_lt_one (by norm_num)]
    push_cast
    norm_num
  refine ⟨?_, ?_, by simp⟩
  · rw [h45, _compute_padding, if_neg hg]
    simp only [compute_padding_step 80 (by norm_num)]
    rfl
  · have h80 : ((80 : ℕ) : ℚ) = (80 : ℚ) := by norm_num
    have e1 : spec_min_train (((80 : ℕ) : ℚ) / 100) = 4 := by
      rw [spec_min_train_frac]
      rfl
    have e2 : spec_min_test (((80 : ℕ) : ℚ) / 100) = 1 := by
      rw [spec_min_test_frac 80 (by norm_num)]
      rfl
    obtain ⟨heq, -, -, -⟩ := pad_general 80 (by norm_num) (by norm_num)
      (List.replicate 26 (0 : ℤ)) (List.replicate 7 (0 : ℤ)) (by simp)
      (by simp only [List.length_replicate]; push_cast; norm_num)
    rw [h45, heq]
    simp only [List.length_replicate, spec_mult, e1, e2, Option.map_some',
      List.length_append]
    rfl

/-- Claim C6 (amended): `_compute_padding` also reaches an exact-ratio target
with nonnegative deltas, but its block size is `100` — the target is
`(k * round(100 f), k * (100 - round(100 f)))` for some `k ≥ 1` — and not the
gcd-reduced `min_len` of `pad_train_test_indices`; consequently the two
calculators differ, as `claim_C6_cex` shows at `(0.8, 26, 7)`. -/
theorem claim_C6_amended (p num_train num_test : ℕ) (hp0 : 0 < p) (hp1 : p < 100) :
    ∃ k, 0 < k ∧
      _compute_padding ((p : ℚ)/100) num_train num_test
        = some (k * p - num_train, k * (100 - p) - num_test) ∧
      num_train ≤ k * p ∧ num_test ≤ k * (100 - p) ∧
      ((k * p : ℕ) : ℚ) / ((k * p + k * (100 - p) : ℕ) : ℚ) = (p : ℚ)/100 := by
  have hg : ¬ ((p : ℚ)/100 ≤ 0 ∨ 1 ≤ (p : ℚ)/100) := by
    push_neg
    constructor
    · positivity
    · rw [div_lt_one (by norm_num)]
      exact_mod_cast hp1
  obtain ⟨k, hk, hloop, h1, h2⟩ := padLoop_reaches p (100 - p) num_train num_test
    hp0 (by omega) (num_train + num_test + 1) 1 (by omega) (by omega)
  simp only [one_mul] at hloop
  refine ⟨k, hk, ?_, h1, h2, ?_⟩
  · rw [_compute_padding, if_neg hg]
    simp only [compute_padding_step p (by omega)]
    rw [hloop]
  · have hsum : k * p + k * (100 - p) = k * 100 := by
      rw [← Nat.mul_add]
      congr 1
      omega
    rw [hsum]
    have hknz : ((k : ℚ)) ≠ 0 := by positivity
    push_cast
    rw [div_eq_div_iff (by positivity) (by norm_num)]
    ring

/-- Witness for `claim_C6_amended` at the counterexample input `(0.8, 26, 7)`:
the multiplier is `1` and the deltas are `(54, 13)`. -/
theorem claim_C6_witness :
    ∃ k, 0 < k ∧
      _compute_padding (((80 : ℕ) : ℚ)/100) 26 7
        = some (k * 80 - 26, k * (100 - 80) - 7) ∧
      26 ≤ k * 80 ∧ 7 ≤ k * (100 - 80) ∧
      ((k * 80 : ℕ) : ℚ) / ((k * 80 + k * (100 - 80) : ℕ) : ℚ) = ((80 : ℕ) : ℚ)/100 :=
  claim_C6_amended 80 26 7 (by norm_num) (by norm_num)

/-! Embedding of the shuffle registry (lines 1367–1469).  The filesystem scan
of `get_existing_shuffle_indices` yields a raw list of indices; the function
returns `sorted(shuffle_indices)`, which is the part modelled here.  The
`ValueError` raised on a collision carries the offending index and the list
of existing indices, exactly the data the message interpolates. -/

def get_existing_shuffle_indices_sorted (raw : List ℤ) : List ℤ :=
  raw.mergeSort (fun a b => a ≤ b)

structure DuplicateShuffleError where
  index : ℤ
  existing : List ℤ
  deriving Repr, DecidableEq

/-- The `for shuffle_idx in shuffles` collision loop of `validate_shuffles`
(lines 1457–1467): the first index that is both checked (`userfeedback`) and
already present raises. -/
def checkShuffleCollisions (existing : List ℤ) (userfeedback : Bool) :
    List ℤ → Option ℤ
  | [] => none
  | i :: rest =>
    if userfeedback = true ∧ i ∈ existing then some i
    else checkShuffleCollisions existing userfeedback rest

/-- Embedding of `validate_shuffles(cfg, shuffles, num_shuffles, userfeedback)`
(lines 1442–1469), with the existing indices passed in (the source obtains
them from `get_existing_shuffle_indices`, which returns them sorted).  With
`shuffles = None`, a contiguous run `range(first_index, num_shuffles +
first_index)` is allocated starting one past the last existing index (or at
`1`).  With explicit shuffles, a collision raises before any shuffle is
created. -/
def validate_shuffles (existing_shuffles : List ℤ) (shuffles : Option (List ℤ))
    (num_shuffles : ℕ) (userfeedback : Bool) :
    Except DuplicateShuffleError (List ℤ) :=
  match shuffles with
  | none =>
    let first_index : ℤ :=
      match existing_shuffles.getLast? with
      | some last => last + 1
      | none => 1
    .ok ((List.range num_shuffles).map (fun k : ℕ => first_index + (k : ℤ)))
  | some s =>
    match checkShuffleCollisions existing_shuffles userfeedback s with
    | some i => .error ⟨i, existing_shuffles⟩
    | none => .ok s

lemma checkShuffleCollisions_some (existing : List ℤ) (s : List ℤ)
    (hcol : ∃ i ∈ s, i ∈ existing) :
    ∃ i, checkShuffleCollisions existing true s = some i ∧ i ∈ s ∧ i ∈ existing := by
  induction s with
  | nil => obtain ⟨i, hi, -⟩ := hcol; exact absurd hi (List.not_mem_nil i)
  | cons a rest ih =>
    by_cases ha : a ∈ existing
    · exact ⟨a, by rw [checkShuffleCollisions, if_pos ⟨rfl, ha⟩], List.mem_cons_self _ _, ha⟩
    · obtain ⟨i, hi, hiex⟩ := hcol
      have hirest : i ∈ rest := by
        rcases List.mem_cons.mp hi with rfl | h
        · exact absurd hiex ha
        · exact h
      obtain ⟨j, hj, hjs, hjex⟩ := ih ⟨i, hirest, hiex⟩
      refine ⟨j, ?_, List.mem_cons_of_mem _ hjs, hjex⟩
      rw [checkShuffleCollisions, if_neg (by rintro ⟨-, h⟩; exact ha h)]
      exact hj

/-- Claim C7: with collision feedback enabled and an explicitly requested
shuffle list containing an index already present, `validate_shuffles` fails
with the duplicate-shuffle error naming an offending requested index and
carrying the full list of existing indices, and no shuffle list is returned
at all (the error aborts the whole dataset-creation call, which performs the
validation before building any split). -/
theorem claim_C7 (existing s : List ℤ) (num : ℕ)
    (hcol : ∃ i ∈ s, i ∈ existing) :
    ∃ i, validate_shuffles existing (some s) num true
        = .error ⟨i, existing⟩ ∧ i ∈ s ∧ i ∈ existing ∧
      ∀ l, validate_shuffles existing (some s) num true ≠ .ok l := by
  obtain ⟨i, hcheck, his, hiex⟩ := checkShuffleCollisions_some existing s hcol
  refine ⟨i, ?_, his, hiex, ?_⟩
  · rw [validate_shuffles, hcheck]
  · intro l h
    rw [validate_shuffles, hcheck] at h
    exact Except.noConfusion h

/-- Witness for `claim_C7`: requesting shuffle `3` when `[1, 2, 3]` already
exist fails naming `3` and listing `[1, 2, 3]`. -/
theorem claim_C7_witness :
    ∃ i, validate_shuffles [1, 2, 3] (some [3]) 1 true
        = .error ⟨i, [1, 2, 3]⟩ ∧ i ∈ ([3] : List ℤ) ∧ i ∈ ([1, 2, 3] : List ℤ) ∧
      ∀ l, validate_shuffles [1, 2, 3] (some [3]) 1 true ≠ .ok l :=
  claim_C7 [1, 2, 3] [3] 1 ⟨3, by decide, by decide⟩

lemma sorted_le_getLast (l : List ℤ) (hs : l.Sorted (· ≤ ·)) (hne : l ≠ []) :
    ∀ x ∈ l, x ≤ l.getLast hne := by
  induction l with
  | nil => exact absurd rfl hne
  | cons a t ih =>
    match t with
    | [] =>
      intro x hx
      rcases List.mem_singleton.mp hx with rfl
      simp [List.getLast]
    | b :: t2 =>
      obtain ⟨ha, hs2⟩ := List.sorted_cons.mp hs
      intro x hx
      rw [List.getLast_cons (by simp : (b :: t2 : List ℤ) ≠ [])]
      rcases List.mem_cons.mp hx with rfl | hx2
      · exact ha _ (List.getLast_mem _)
      · exact ih hs2 (by simp) x hx2

/-- Claim C8: with no explicit shuffle list, `validate_shuffles` allocates
exactly `num_shuffles` indices, the `k`-th being `first_index + k` with
`first_index` one past the maximum existing index (or `1` when no shuffle
exists) — a contiguous strictly increasing run — and no allocated index is
already present among the existing indices. -/
theorem claim_C8 (raw : List ℤ) (num : ℕ) (ufb : Bool) :
    ∃ l, validate_shuffles (get_existing_shuffle_indices_sorted raw) none num ufb
        = .ok l ∧
      l.length = num ∧
      (∀ k, k < num → ∃ first,
        ((raw = [] ∧ first = 1) ∨ (raw ≠ [] ∧ (∃ mx ∈ raw, (∀ x ∈ raw, x ≤ mx) ∧
          first = mx + 1))) ∧ l.get? k = some (first + (k : ℤ))) ∧
      (∀ i ∈ l, i ∉ raw) := by
  classical
  set existing := get_existing_shuffle_indices_sorted raw with hex
  have hperm : existing.Perm raw := by
    rw [hex, get_existing_shuffle_indices_sorted]
    exact List.mergeSort_perm raw _
  have hsorted : existing.Sorted (· ≤ ·) := by
    rw [hex, get_existing_shuffle_indices_sorted]
    exact List.sorted_mergeSort' raw
  set first : ℤ := (match existing.getLast? with
    | some last => last + 1
    | none => 1) with hfirst
  have hres : validate_shuffles existing none num ufb
      = .ok ((List.range num).map (fun k : ℕ => first + (k : ℤ))) := by
    rw [validate_shuffles]
  have hfirst_spec : (raw = [] ∧ first = 1) ∨ (raw ≠ [] ∧ (∃ mx ∈ raw,
      (∀ x ∈ raw, x ≤ mx) ∧ first = mx + 1)) := by
    by_cases hnil : existing = []
    · left
      constructor
      · have h0 := hperm
        rw [hnil] at h0
        exact (List.Perm.eq_nil h0.symm)
      · rw [hfirst, hnil]
        rfl
    · right
      have hrawne : raw ≠ [] := by
        intro h
        rw [h] at hperm
        exact hnil (List.Perm.eq_nil hperm)
      have hlastmem : existing.getLast hnil ∈ existing := List.getLast_mem hnil
      refine ⟨hrawne, existing.getLast hnil, hperm.mem_iff.mp hlastmem, ?_, ?_⟩
      · intro x hx
        exact sorted_le_getLast existing hsorted hnil x (hperm.mem_iff.mpr hx)
      · rw [hfirst, List.getLast?_eq_getLast existing hnil]
  refine ⟨_, hres, by simp, ?_, ?_⟩
  · intro k hk
    refine ⟨first, hfirst_spec, ?_⟩
    rw [List.get?_eq_getElem?, List.getElem?_map, List.getElem?_range hk]
    rfl
  · intro i hi hiraw
    obtain ⟨k, hk, rfl⟩ := List.mem_map.mp hi
    rcases hfirst_spec with ⟨hrawnil, -⟩ | ⟨-, mx, -, hmax, hfeq⟩
    · rw [hrawnil] at hiraw
      exact List.not_mem_nil _ hiraw
    · have h1 : first + (k : ℤ) ≤ mx := hmax _ hiraw
      have h2 : (0 : ℤ) ≤ (k : ℤ) := Int.natCast_nonneg k
      omega

/-- Embedding of the `uniform == False` branch of `mergeandsplit`
(lines 722–734).  `videoStems` is `[Path(i).stem for i in videos]` in the
order of `cfg["video_sets"].keys()` (insertion order, not sorted);
`rows` is the second index level `name[1]` of each row of the merged table,
in row order.  Selecting `[trainindex]` out of range raises (`none`);
otherwise every row position whose folder name equals the chosen stem goes to
the test side and the others to the train side, in order. -/
def mergeandsplit_loo (videoStems : List String) (trainindex : ℕ)
    (rows : List String) : Option (List ℕ × List ℕ) :=
  match videoStems.get? trainindex with
  | none => none
  | some test_video_name =>
    some ((rows.enum.filter (fun pr => pr.2 ≠ test_video_name)).map Prod.fst,
          (rows.enum.filter (fun pr => pr.2 = test_video_name)).map Prod.fst)

/-- Claim C9: with `uniform=False`, the test indices are exactly the row
positions whose folder-level index value equals the stem of the
`trainindex`-th video of the configured list (selection by list position),
the train indices are all remaining positions, and the two lists partition
`0 .. len(rows) - 1` with no overlap. -/
theorem claim_C9 (videoStems : List String) (trainindex : ℕ) (rows : List String)
    (hidx : trainindex < videoStems.length) :
    ∃ test_video_name tr te,
      videoStems.get? trainindex = some test_video_name ∧
      mergeandsplit_loo videoStems trainindex rows = some (tr, te) ∧
      (∀ i, i ∈ te ↔ rows.get? i = some test_video_name) ∧
      (∀ i, i ∈ tr ↔ ∃ v, rows.get? i = some v ∧ v ≠ test_video_name) ∧
      (∀ i, (i ∈ tr ∨ i ∈ te) ↔ i < rows.length) ∧
      (∀ i, ¬ (i ∈ tr ∧ i ∈ te)) := by
  set nm := videoStems.get ⟨trainindex, hidx⟩ with hnmdef
  have hname : videoStems.get? trainindex = some nm := List.get?_eq_get hidx
  have hmem_te : ∀ i, (i ∈ (rows.enum.filter (fun pr => pr.2 = nm)).map Prod.fst
      ↔ rows.get? i = some nm) := by
    intro i
    constructor
    · intro hi
      obtain ⟨⟨j, v⟩, hjf, hj⟩ := List.mem_map.mp hi
      obtain ⟨hjm, hveq⟩ := List.mem_filter.mp hjf
      simp only at hj hveq
      obtain rfl : j = i := hj
      have : rows.get? j = some v := by
        rw [List.get?_eq_getElem?]
        exact List.mk_mem_enum_iff_getElem?.mp hjm
      rw [this]
      rw [decide_eq_true_iff] at hveq
      rw [hveq]
    · intro hi
      refine List.mem_map.mpr ⟨(i, nm), List.mem_filter.mpr ⟨?_, by simp⟩, rfl⟩
      exact List.mk_mem_enum_iff_getElem?.mpr (by rw [← List.get?_eq_getElem?]; exact hi)
  have hmem_tr : ∀ i, (i ∈ (rows.enum.filter (fun pr => pr.2 ≠ nm)).map Prod.fst
      ↔ ∃ v, rows.get? i = some v ∧ v ≠ nm) := by
    intro i
    constructor
    · intro hi
      obtain ⟨⟨j, v⟩, hjf, hj⟩ := List.mem_map.mp hi
      obtain ⟨hjm, hvne⟩ := List.mem_filter.mp hjf
      simp only at hj hvne
      obtain rfl : j = i := hj
      refine ⟨v, ?_, by simpa using hvne⟩
      rw [List.get?_eq_getElem?]
      exact List.mk_mem_enum_iff_getElem?.mp hjm
    · rintro ⟨v, hv, hvne⟩
      refine List.mem_map.mpr ⟨(i, v), List.mem_filter.mpr ⟨?_, by simpa using hvne⟩, rfl⟩
      exact List.mk_mem_enum_iff_getElem?.mpr (by rw [← List.get?_eq_getElem?]; exact hv)
  refine ⟨nm, _, _, hname, by rw [mergeandsplit_loo, hname], ?_, ?_, ?_, ?_⟩
  · exact hmem_te
  · exact hmem_tr
  · intro i
    rw [hmem_tr i, hmem_te i]
    constructor
    · rintro (⟨v, hv, -⟩ | hv)
      · obtain ⟨hlt, -⟩ := List.get?_eq_some.mp hv
        exact hlt
      · obtain ⟨hlt, -⟩ := List.get?_eq_some.mp hv
        exact hlt
    · intro hi
      by_cases hv : rows.get? i = some nm
      · exact Or.inr hv
      · left
        have hv2 : rows.get? i = some (rows.get ⟨i, hi⟩) := List.get?_eq_get hi
        exact ⟨rows.get ⟨i, hi⟩, hv2, fun h => hv (h ▸ hv2)⟩
  · intro i ⟨htr, hte⟩
    rw [hmem_tr i] at htr
    rw [hmem_te i] at hte
    obtain ⟨v, hv, hvne⟩ := htr
    rw [hv] at hte
    exact hvne ((Option.some.injEq _ _).mp hte)

/-- Witness for `claim_C9`: the second configured video is held out; rows of
that folder become test indices, the rest train indices. -/
theorem claim_C9_witness :
    ∃ test_video_name tr te,
      (["vidA", "vidB"] : List String).get? 1 = some test_video_name ∧
      mergeandsplit_loo ["vidA", "vidB"] 1 ["vidA", "vidB", "vidB"] = some (tr, te) ∧
      (∀ i, i ∈ te ↔ (["vidA", "vidB", "vidB"] : List String).get? i
        = some test_video_name) ∧
      (∀ i, i ∈ tr ↔ ∃ v, (["vidA", "vidB", "vidB"] : List String).get? i
        = some v ∧ v ≠ test_video_name) ∧
      (∀ i, (i ∈ tr ∨ i ∈ te) ↔ i < (["vidA", "vidB", "vidB"] : List String).length) ∧
      (∀ i, ¬ (i ∈ tr ∧ i ∈ te)) :=
  claim_C9 ["vidA", "vidB"] 1 ["vidA", "vidB", "vidB"] (by norm_num)

/-! Embedding of the caller-supplied-split branch of `create_training_dataset`
(lines 1144–1167).  The guard is the chained comparison
`len(trainIndices) != len(testIndices) != len(Shuffles)`, which raises only
when both adjacent inequalities hold.  The loop then walks
`enumerate(zip(trainIndices, testIndices))`: each pair has its fraction
computed (dividing by zero raises when both lists are empty), is stripped of
`-1` sentinels, and is paired with `Shuffles[shuffle]`, which raises an
IndexError when the position runs past the end of `Shuffles`.  Python's
`round` breaks ties to even while `roundTo2` rounds half away from zero;
no claim depends on a tie. -/

def strip_sentinels (l : List ℤ) : List ℤ := l.filter (fun x => x ≠ -1)

/-- The exception kinds this branch of `create_training_dataset` can raise. -/
inductive SplitsError
  | valueError
  | indexError
  | zeroDivisionError
  deriving Repr, DecidableEq

def buildSplitsLoop (Shuffles : List ℤ) :
    ℕ → List (List ℤ × List ℤ) → Except SplitsError (List (ℚ × ℤ × (List ℤ × List ℤ)))
  | _, [] => .ok []
  | shuffle, (train_inds, test_inds) :: rest =>
    if train_inds.length + test_inds.length = 0 then
      .error .zeroDivisionError
    else
      match Shuffles.get? shuffle with
      | none => .error .indexError
      | some sh =>
        match buildSplitsLoop Shuffles (shuffle + 1) rest with
        | .error e => .error e
        | .ok out =>
          .ok ((roundTo2 ((train_inds.length : ℚ) /
                ((train_inds.length + test_inds.length : ℕ) : ℚ)),
              sh, (strip_sentinels train_inds, strip_sentinels test_inds)) :: out)

def build_supplied_splits (trainIndices testIndices : List (List ℤ))
    (Shuffles : List ℤ) : Except SplitsError (List (ℚ × ℤ × (List ℤ × List ℤ))) :=
  if trainIndices.length ≠ testIndices.length ∧ testIndices.length ≠ Shuffles.length then
    .error .valueError
  else
    buildSplitsLoop Shuffles 0 (trainIndices.zip testIndices)

lemma buildSplitsLoop_ok (Shuffles : List ℤ) :
    ∀ (pairs : List (List ℤ × List ℤ)) (k : ℕ),
      (∀ pr ∈ pairs, pr.1.length + pr.2.length ≠ 0) →
      k + pairs.length ≤ Shuffles.length →
      ∃ out, buildSplitsLoop Shuffles k pairs = .ok out ∧ out.length = pairs.length := by
  intro pairs
  induction pairs with
  | nil => exact fun k _ _ => ⟨[], rfl, rfl⟩
  | cons pr rest ih =>
    intro k hz hle
    obtain ⟨tr, te⟩ := pr
    have hk : k < Shuffles.length := by
      simp only [List.length_cons] at hle
      omega
    have hsh : Shuffles.get? k = some (Shuffles.get ⟨k, hk⟩) := List.get?_eq_get hk
    obtain ⟨out, hout, hlen⟩ := ih (k + 1)
      (fun q hq => hz q (List.mem_cons_of_mem _ hq))
      (by simp only [List.length_cons] at hle; omega)
    refine ⟨(roundTo2 ((tr.length : ℚ) / ((tr.length + te.length : ℕ) : ℚ)),
        Shuffles.get ⟨k, hk⟩, (strip_sentinels tr, strip_sentinels te)) :: out, ?_, ?_⟩
    · rw [buildSplitsLoop, if_neg (hz (tr, te) (List.mem_cons_self _ _)), hsh, hout]
    · simp [hlen]

lemma buildSplitsLoop_overrun (Shuffles : List ℤ) :
    ∀ (pairs : List (List ℤ × List ℤ)) (k : ℕ),
      (∀ pr ∈ pairs, pr.1.length + pr.2.length ≠ 0) →
      pairs ≠ [] →
      Shuffles.length < k + pairs.length →
      buildSplitsLoop Shuffles k pairs = .error .indexError := by
  intro pairs
  induction pairs with
  | nil => exact fun k _ hne _ => absurd rfl hne
  | cons pr rest ih =>
    intro k hz _ hlt
    obtain ⟨tr, te⟩ := pr
    by_cases hk : k < Shuffles.length
    · have hrestne : rest ≠ [] := by
        intro h
        rw [h] at hlt
        simp only [List.length_cons, List.length_nil] at hlt
        omega
      have hsh : Shuffles.get? k = some (Shuffles.get ⟨k, hk⟩) := List.get?_eq_get hk
      have hrec := ih (k + 1) (fun q hq => hz q (List.mem_cons_of_mem _ hq)) hrestne
        (by simp only [List.length_cons] at hlt; omega)
      rw [buildSplitsLoop, if_neg (hz (tr, te) (List.mem_cons_self _ _)), hsh, hrec]
    · have hsh : Shuffles.get? k = none := by
        rw [List.get?_eq_none]
        omega
      rw [buildSplitsLoop, if_neg (hz (tr, te) (List.mem_cons_self _ _)), hsh]

lemma buildSplitsLoop_no_valueerror (Shuffles : List ℤ) :
    ∀ (pairs : List (List ℤ × List ℤ)) (k : ℕ),
      buildSplitsLoop Shuffles k pairs ≠ .error .valueError := by
  intro pairs
  induction pairs with
  | nil =>
    intro k h
    exact Except.noConfusion h
  | cons pr rest ih =>
    intro k h
    obtain ⟨tr, te⟩ := pr
    rw [buildSplitsLoop] at h
    by_cases hz : tr.length + te.length = 0
    · rw [if_pos hz] at h
      have h2 : SplitsError.zeroDivisionError = SplitsError.valueError :=
        (Except.error.injEq _ _).mp h
      exact SplitsError.noConfusion h2
    · rw [if_neg hz] at h
      match hsh : Shuffles.get? k with
      | none =>
        rw [hsh] at h
        have h2 : SplitsError.indexError = SplitsError.valueError :=
          (Except.error.injEq _ _).mp h
        exact SplitsError.noConfusion h2
      | some sh =>
        rw [hsh] at h
        match hrec : buildSplitsLoop Shuffles (k + 1) rest with
        | .error e =>
          rw [hrec] at h
          have h2 : e = SplitsError.valueError := (Except.error.injEq _ _).mp h
          exact ih (k + 1) (by rw [hrec, h2])
        | .ok out =>
          rw [hrec] at h
          exact Except.noConfusion h

/-- Claim C10 counterexample: two equal-length index lists with a single
shuffle pass the chained-comparison validation, but the surplus index pair is
not silently dropped — `Shuffles[1]` raises an IndexError. -/
theorem claim_C10_cex :
    (¬ (([[0], [1]] : List (List ℤ)).length ≠ ([[2], [3]] : List (List ℤ)).length ∧
        ([[2], [3]] : List (List ℤ)).length ≠ ([5] : List ℤ).length)) ∧
    build_supplied_splits [[0], [1]] [[2], [3]] [5] = .error .indexError := by
  constructor
  · intro h
    exact h.1 rfl
  · rfl

/-- Claim C10 (amended): the chained comparison
`len(trainIndices) != len(testIndices) != len(Shuffles)` raises `ValueError`
exactly when both adjacent inequalities hold; with equal-length train/test
lists (no pair fully empty) it passes silently, and then surplus shuffles are
dropped by the zip pairing (only the first `n` are used), while surplus index
pairs instead hit an `IndexError` when `Shuffles[shuffle]` runs off the end. -/
theorem claim_C10_amended (trainIndices testIndices : List (List ℤ))
    (Shuffles : List ℤ)
    (heqlen : trainIndices.length = testIndices.length)
    (hnz : ∀ pr ∈ trainIndices.zip testIndices, pr.1.length + pr.2.length ≠ 0) :
    (trainIndices.length ≤ Shuffles.length →
      ∃ out, build_supplied_splits trainIndices testIndices Shuffles = .ok out ∧
        out.length = trainIndices.length) ∧
    (Shuffles.length < trainIndices.length →
      build_supplied_splits trainIndices testIndices Shuffles = .error .indexError) ∧
    build_supplied_splits trainIndices testIndices Shuffles ≠ .error .valueError := by
  have hzip : (trainIndices.zip testIndices).length = trainIndices.length := by
    rw [List.length_zip, heqlen, Nat.min_self]
  have hguard : ¬ (trainIndices.length ≠ testIndices.length ∧
      testIndices.length ≠ Shuffles.length) := by
    intro h
    exact h.1 heqlen
  refine ⟨?_, ?_, ?_⟩
  · intro hle
    obtain ⟨out, hout, hlen⟩ := buildSplitsLoop_ok Shuffles (trainIndices.zip testIndices)
      0 hnz (by omega)
    refine ⟨out, ?_, by omega⟩
    rw [build_supplied_splits, if_neg hguard, hout]
  · intro hlt
    have hzne : trainIndices.zip testIndices ≠ [] := by
      intro h
      rw [h] at hzip
      simp only [List.length_nil] at hzip
      omega
    rw [build_supplied_splits, if_neg hguard]
    exact buildSplitsLoop_overrun Shuffles _ 0 hnz hzne (by omega)
  · rw [build_supplied_splits, if_neg hguard]
    exact buildSplitsLoop_no_valueerror Shuffles _ 0

/-- Witness for `claim_C10_amended` at the counterexample input: the
validation passes and the surplus pair raises the IndexError. -/
theorem claim_C10_witness :
    (([[0], [1]] : List (List ℤ)).length ≤ ([5] : List ℤ).length →
      ∃ out, build_supplied_splits [[0], [1]] [[2], [3]] [5] = .ok out ∧
        out.length = ([[0], [1]] : List (List ℤ)).length) ∧
    (([5] : List ℤ).length < ([[0], [1]] : List (List ℤ)).length →
      build_supplied_splits [[0], [1]] [[2], [3]] [5] = .error .indexError) ∧
    build_supplied_splits [[0], [1]] [[2], [3]] [5] ≠ .error .valueError :=
  claim_C10_amended [[0], [1]] [[2], [3]] [5] rfl (by decide)

end DLC
